import Mathlib

/-!
Shallow embedding of the state-sequence segmentation and duration-accounting
logic of the WSA Leo dashboard, translated from
`src/pages/1_📊_Unit_Overview.py` (function `create_efficiency_metrics`,
lines 209-342) and `src/utils/functions.py`.

Modelling conventions:
* timestamps are rational numbers of minutes since an arbitrary epoch
  (for the concrete scenarios the epoch is 2024-01-01T00:00, so calendar
  day `2024-01-01` is day index 0);
* a calendar date is its integer day index; `pandas .dt.date` becomes
  `floor (ts / 1440)`, and `date + pd.Timedelta(days=1)` becomes `+ 1`;
* a pandas cell that may hold a number, a string or NaN is `PyVal`;
  `pd.to_numeric(..., errors="coerce")` is `toNumericCoerce`;
* a possibly-NaN category column is `Option Category` (`none` = NaN);
  pandas NaN == x is false for every x, and `Series.isin` is false on NaN;
* `pandas.groupby` drops groups whose key is NaN, which is why the
  Clean Split post-processing totals (`mappedDateTotal`) ignore rows with a
  null category while the Hide totals (`dateTotal`, keyed on date only)
  do not;
* the `while remaining_duration > 0` loop of the source is `spillFuel`,
  run with an explicitly sufficient amount of fuel (`fuelFor`); each
  iteration subtracts `min 1440 remaining` (or at least `min 480 remaining`
  for capped Maintenance/System portions), so `⌈remaining / 480⌉` bounds
  the iteration count;
* `filtered_df['date'].iloc[0]` on an empty frame raises `IndexError`;
  accordingly `splitStates` returns `Option`, with `none` for the error.
-/

inductive Category
  | Production
  | Maintenance
  | Testing
  | System
  | Manufacturing
deriving DecidableEq, Repr

inductive Policy
  | Hide
  | CleanSplit
  | RawSplit
  | ShowAll
deriving DecidableEq, Repr

/-- A pandas cell value: a number, a string, or NaN (also used for missing). -/
inductive PyVal
  | num (n : ℤ)
  | str (s : String)
  | nan
deriving DecidableEq, Repr

/-- One row of the raw sequence stream: `timestamp` (minutes) and `code`. -/
structure SeqRow where
  ts : ℚ
  code : PyVal
deriving DecidableEq, Repr

/-- One row of the state-mapping table: `State ID` and `State Type`. -/
structure StateRow where
  stateId : PyVal
  stateType : String
deriving DecidableEq, Repr

/-- One row of the working table after merge/duration/date/category steps
(`analysis_df` and its descendants): `timestamp`, mapped `State Type`
(`none` = NaN), `date`, `duration` in minutes. -/
structure Row where
  ts : ℚ
  cat : Option Category
  date : ℤ
  dur : ℚ
deriving DecidableEq, Repr

/-- Value of a decimal-digit run (code points 48-57), accumulator style. -/
def digitsVal : List Char → ℕ → Option ℕ
  | [], acc => some acc
  | c :: cs, acc =>
    if 48 ≤ c.toNat && c.toNat ≤ 57 then digitsVal cs (acc * 10 + (c.toNat - 48))
    else none

/-- Integer-string parsing (optional leading minus, code point 45, then
digits); stands for the numeric parsing `pd.to_numeric` applies to string
cells, on the integer-literal subset the embedded tables use. -/
def parseIntStr (s : String) : Option ℤ :=
  match s.data with
  | [] => none
  | c :: cs =>
    if c.toNat = 45 then
      match cs with
      | [] => none
      | _ => (digitsVal cs 0).map (fun n => -(n : ℤ))
    else (digitsVal (c :: cs) 0).map (fun n => (n : ℤ))

/-- `pd.to_numeric(x, errors="coerce")` on one cell: numbers pass through,
numeric strings parse, everything else becomes NaN. -/
def toNumericCoerce : PyVal → PyVal
  | .num n => .num n
  | .str s => match parseIntStr s with
      | some n => .num n
      | none => .nan
  | .nan => .nan

/-- Line 213: `sequences_df['code'] = pd.to_numeric(sequences_df['code'], errors='coerce')`,
an in-place column assignment on the caller's table. -/
def coerce_codes (seqs : List SeqRow) : List SeqRow :=
  seqs.map (fun s => { s with code := toNumericCoerce s.code })

/-- Join-key equality used by `pd.merge`: values of different kinds never
match, and pandas hash-joins NaN keys to NaN keys. -/
def pyKeyEq : PyVal → PyVal → Bool
  | .num a, .num b => a == b
  | .str a, .str b => a == b
  | .nan, .nan => true
  | _, _ => false

/-- Lines 214-220: `pd.merge(sequences_df, sequence_states_df, left_on='code',
right_on='State ID', how='left')`; one output row per matching right row,
left order preserved, unmatched left rows get a NaN `State Type`. -/
def mergeLeft (seqs : List SeqRow) (states : List StateRow) :
    List (SeqRow × Option String) :=
  seqs.flatMap (fun s =>
    match states.filter (fun t => pyKeyEq s.code t.stateId) with
    | [] => [(s, none)]
    | ms => ms.map (fun t => (s, some t.stateType)))

/-- Line 223: `analysis_df['timestamp'].diff(-1).dt.total_seconds().abs() / 60`,
the absolute delta, in minutes, from each row to the next row of the table. -/
def rawDeltas : List ℚ → List ℚ
  | [] => []
  | [_] => []
  | a :: b :: rest => |b - a| :: rawDeltas (b :: rest)

/-- `pandas.Series.median`: middle element of the sorted values, or the mean
of the two middle elements.  pandas yields NaN on an empty series; that case
only arises for a single-event stream, which no property here exercises, and
is rendered as 0. -/
def medianQ (l : List ℚ) : ℚ :=
  let s := List.insertionSort (fun a b : ℚ => a ≤ b) l
  let n := s.length
  if n = 0 then 0
  else if n % 2 = 1 then s.getD (n / 2) 0
  else (s.getD (n / 2 - 1) 0 + s.getD (n / 2) 0) / 2

/-- Line 225: `analysis_df['timestamp'].dt.date`, as a day index. -/
def dateOf (t : ℚ) : ℤ := (t / 1440).floor

/-- Lines 229-236: the fixed `state_categories` dictionary. -/
def state_categories : List (String × Category) :=
  [("Water Production", .Production),
   ("Cleaning & Disinfection", .Maintenance),
   ("Testing", .Testing),
   ("System Management", .System),
   ("Manufacturing", .Manufacturing),
   ("In-Field Self Test", .Testing)]

/-- Line 239: `analysis_df['State Type'].map(state_categories)`; a `State Type`
absent from the dictionary maps to NaN. -/
def mapStateType (s : String) : Option Category :=
  (state_categories.find? (fun p => p.1 == s)).map Prod.snd

/-- Build one working-table row from a merged row and its duration. -/
def mkRow (m : SeqRow × Option String) (d : ℚ) : Row :=
  { ts := m.1.ts
    cat := m.2.bind mapStateType
    date := dateOf m.1.ts
    dur := d }

/-- Lines 213-239: coerce codes, merge with the state table, compute
durations (last row imputed with the median, line 224), dates and mapped
categories.  This is the table the policies consume. -/
def step3Rows (seqs : List SeqRow) (states : List StateRow) : List Row :=
  let merged := mergeLeft (coerce_codes seqs) states
  let ds := rawDeltas (merged.map (fun m => m.1.ts))
  List.zipWith mkRow merged (ds ++ [medianQ ds])

/-- `isin(['Manufacturing', 'Testing'])`; false on NaN. -/
def catMT (c : Option Category) : Bool :=
  c == some Category.Manufacturing || c == some Category.Testing

/-- Lines 242-244: drop Manufacturing/Testing rows when the toggle is off.
NaN-category rows are not in the `isin` set and are therefore retained. -/
def filteredRows (show_manufacturing : Bool) (seqs : List SeqRow)
    (states : List StateRow) : List Row :=
  let rows := step3Rows seqs states
  if show_manufacturing then rows
  else rows.filter (fun r => !(catMT r.cat))

/-- `groupby('date')['duration'].sum()` evaluated at one date. -/
def dateTotal (l : List Row) (d : ℤ) : ℚ :=
  ((l.filter (fun r => decide (r.date = d))).map Row.dur).sum

/-- `groupby(['date', 'State Type'])['duration'].sum()` re-summed per date:
rows whose `State Type` is NaN are dropped by the groupby. -/
def mappedDateTotal (l : List Row) (d : ℤ) : ℚ :=
  ((l.filter (fun r => decide (r.date = d) && !(decide (r.cat = none)))).map Row.dur).sum

/-- Lines 249-254, the `Hide` branch: keep exactly the rows whose date has a
pre-policy total of at most 1440 minutes. -/
def hidePolicy (l : List Row) : List Row :=
  l.filter (fun r => decide (dateTotal l r.date ≤ 1440))

/-- The loop variable `prev_state_type`: Python `None` (`none`), or a stored
`State Type` cell, itself possibly NaN (`some none`). -/
abbrev Prev := Option (Option Category)

/-- `prev_state_type == row['State Type']`: true only when both sides are the
same actual category (NaN compares false with everything, as does `None`). -/
def pyEqPrev : Prev → Option Category → Bool
  | some (some a), some b => a == b
  | _, _ => false

/-- `prev_state_type in ['Maintenance', 'System']`. -/
def prevMS : Prev → Bool
  | some (some c) => c == Category.Maintenance || c == Category.System
  | _ => false

/-- `row['State Type'] in ['Maintenance', 'System']`: false on NaN. -/
def catMS : Option Category → Bool
  | some c => c == Category.Maintenance || c == Category.System
  | none => false

/-- State carried across loop iterations, plus the rows a step emits. -/
structure StepRes where
  emit : List Row
  cdd : ℚ
  cdate : ℤ
  prev : Prev
deriving DecidableEq, Repr

/-- Line 301 (and the 480 cap of line 306): `next_duration`, the length of
the next spilled portion. -/
def spillNd (pol : Policy) (r : Row) (remaining : ℚ) : ℚ :=
  if pol == .CleanSplit && catMS r.cat then min (min 1440 remaining) 480
  else min (1440 : ℚ) remaining

/-- Line 307: whether the spilled portion is appended (Clean Split skips a
repeat of a Maintenance/System state). -/
def spillKeep (pol : Policy) (r : Row) (prev : Prev) : Bool :=
  !(pol == .CleanSplit && (pyEqPrev prev r.cat && prevMS prev))

/-- `prev_state_type` after one spill pass (line 310). -/
def spillPrev (pol : Policy) (r : Row) (prev : Prev) : Prev :=
  if pol == .CleanSplit && spillKeep pol r prev then some r.cat else prev

/-- Lines 295-316: the `while remaining_duration > 0` loop, with explicit
fuel.  Each pass advances `current_date`, emits (unless Clean Split skips a
duplicate Maintenance/System state) a portion of `spillNd` minutes and sets
`current_day_duration` to it. -/
def spillFuel (pol : Policy) (r : Row) :
    ℕ → ℚ → ℚ → ℤ → Prev → StepRes
  | 0, _, cdd, cdate, prev => ⟨[], cdd, cdate, prev⟩
  | fuel + 1, remaining, cdd, cdate, prev =>
    if 0 < remaining then
      let s := spillFuel pol r fuel (remaining - spillNd pol r remaining)
          (spillNd pol r remaining) (cdate + 1) (spillPrev pol r prev)
      ⟨(if spillKeep pol r prev then
          [{ r with date := cdate + 1, dur := spillNd pol r remaining }]
        else []) ++ s.emit,
        s.cdd, s.cdate, s.prev⟩
    else ⟨[], cdd, cdate, prev⟩

/-- Fuel that always outlasts the loop: each pass removes at least
`min 480 remaining`, so `⌊remaining / 480⌋ + 2` passes always suffice. -/
def fuelFor (remaining : ℚ) : ℕ := ((remaining / 480).floor).toNat + 2

/-- The while loop of lines 295-316 with its fuel discharged. -/
def spill (pol : Policy) (r : Row) (remaining cdd : ℚ) (cdate : ℤ)
    (prev : Prev) : StepRes :=
  spillFuel pol r (fuelFor remaining) remaining cdd cdate prev

/-- Lines 318-322: after processing a row, if its own date differs from
`current_date`, move to that date, restart the accumulator at the row's full
duration (Raw Split) or at most 480 of it (Clean Split), and forget
`prev_state_type`. -/
def boundaryAdjust (pol : Policy) (r : Row) (s : StepRes) : StepRes :=
  if r.date ≠ s.cdate then
    ⟨s.emit, if pol == .RawSplit then r.dur else min r.dur 480, r.date, none⟩
  else s

/-- Lines 266-322: the body of the `for` loop for one row.  A row fitting the
running day budget is emitted unchanged (Clean Split `continue`s instead on a
duplicate Maintenance/System state, skipping even the date check); otherwise
the row is split: the positive remainder of the budget stays on the row's own
date and the spill loop distributes the rest over advanced dates.
`stepFirst` is the first-portion computation of lines 282-291. -/
def stepFirst (pol : Policy) (cdd : ℚ) (prev : Prev) (r : Row) :
    List Row × Prev :=
  if 0 < 1440 - cdd then
    if pol == .CleanSplit then
      if pyEqPrev prev r.cat && prevMS prev then ([], prev)
      else ([{ r with dur := 1440 - cdd }], some r.cat)
    else ([{ r with dur := 1440 - cdd }], prev)
  else ([], prev)

def stepEmit (pol : Policy) (cdd : ℚ) (cdate : ℤ) (prev : Prev) (r : Row) :
    StepRes :=
  if cdd + r.dur ≤ 1440 then
    if pol == .CleanSplit && (pyEqPrev prev r.cat && prevMS prev) then
      ⟨[], cdd, cdate, prev⟩
    else
      boundaryAdjust pol r ⟨[r], cdd + r.dur, cdate, some r.cat⟩
  else
    let s := spill pol r (r.dur - (1440 - cdd)) cdd cdate
        (stepFirst pol cdd prev r).2
    boundaryAdjust pol r
      ⟨(stepFirst pol cdd prev r).1 ++ s.emit, s.cdd, s.cdate, s.prev⟩

/-- The `for _, row in filtered_df.iterrows()` loop, threading the
accumulators and concatenating the emitted rows in order. -/
def runSplit (pol : Policy) (cdd : ℚ) (cdate : ℤ) (prev : Prev) :
    List Row → List Row
  | [] => []
  | r :: rs =>
    let t := stepEmit pol cdd cdate prev r
    t.emit ++ runSplit pol t.cdd t.cdate t.prev rs

/-- Lines 260-324: initialise `current_day_duration = 0`,
`current_date = filtered_df['date'].iloc[0]` (an `IndexError` — `none` — on
an empty table), `prev_state_type = None`, then run the loop. -/
def splitStates (pol : Policy) (l : List Row) : Option (List Row) :=
  match l with
  | [] => none
  | r :: _ => some (runSplit pol 0 r.date none l)

/-- `State Type == prev_state` on two stored cells: NaN matches nothing. -/
def optCatEq : Option Category → Option Category → Bool
  | some a, some b => a == b
  | _, _ => false

/-- Lines 339-342 condition: the row equals the previous row of its date
group and its category is Maintenance or System. -/
def dupMS (p : Option Row) (r : Row) : Bool :=
  match p with
  | some q => decide (q.date = r.date) && optCatEq r.cat q.cat && catMS r.cat
  | none => false

/-- Lines 337-342: `prev_state = groupby('date')['State Type'].shift(1)` and
removal of rows matching `dupMS`; the shift reads the original neighbour, so
the predicate is evaluated against the preceding input row, kept or not. -/
def prunePass : Option Row → List Row → List Row
  | _, [] => []
  | p, r :: rs => (if dupMS p r then [] else [r]) ++ prunePass (some r) rs

/-- Line 258: `sort_values('timestamp')` (stable on the embedded model). -/
def sortTs (l : List Row) : List Row :=
  List.insertionSort (fun a b : Row => a.ts ≤ b.ts) l

/-- Line 337: `sort_values(['date', 'timestamp'])`. -/
def sortDateTs (l : List Row) : List Row :=
  List.insertionSort
    (fun a b : Row => a.date < b.date ∨ (a.date = b.date ∧ a.ts ≤ b.ts)) l

/-- Lines 327-342, the Clean Split post-processing: keep the rows whose date
appears in the NaN-dropping groupby with a total of at most 1440 (a date all
of whose rows have a NaN category is absent from `valid_days` and is dropped
whole), then sort by date and timestamp and prune duplicate adjacent
Maintenance/System states per date. -/
def validDay (s : List Row) (r : Row) : Bool :=
  s.any (fun q => decide (q.date = r.date) && !(decide (q.cat = none))) &&
  decide (mappedDateTotal s r.date ≤ 1440)

def cleanPost (s : List Row) : List Row :=
  prunePass none (sortDateTs (s.filter (validDay s)))

/-- Lines 211-342 of `create_efficiency_metrics`, as the value of
`filtered_df` after policy resolution — the table all displayed metrics are
computed from.  `none` models the `IndexError` of line 263. -/
def create_efficiency_metrics (pol : Policy) (show_manufacturing : Bool)
    (seqs : List SeqRow) (states : List StateRow) : Option (List Row) :=
  let f := filteredRows show_manufacturing seqs states
  match pol with
  | .ShowAll => some f
  | .Hide => some (hidePolicy f)
  | .RawSplit => splitStates .RawSplit (sortTs f)
  | .CleanSplit => (splitStates .CleanSplit (sortTs f)).map cleanPost

/-- The function together with the state of the caller's two input tables
after it returns: line 213 reassigns the `code` column of the events table in
place, the mapping table is left untouched. -/
def create_efficiency_metrics_tables (pol : Policy)
    (show_manufacturing : Bool) (seqs : List SeqRow)
    (states : List StateRow) :
    Option (List Row) × List SeqRow × List StateRow :=
  (create_efficiency_metrics pol show_manufacturing seqs states,
   coerce_codes seqs, states)

/-! Concrete event streams used by the scenario theorems below.  Timestamps
count minutes from 2024-01-01T00:00, so 2024-01-01 is day 0. -/

/-- Events at 2024-01-01T23:00, 2024-01-02T02:00 (both Water Production) and
2024-01-02T04:00 (Cleaning & Disinfection): the scenario of the spec. -/
def seqsScenario : List SeqRow := [⟨1380, .num 1⟩, ⟨1560, .num 1⟩, ⟨1680, .num 2⟩]

def statesScenario : List StateRow :=
  [⟨.num 1, "Water Production"⟩, ⟨.num 2, "Cleaning & Disinfection"⟩]

/-- A Production event, a Manufacturing event 10 minutes later, and a
Production event 50 minutes after that. -/
def seqsInterleaved : List SeqRow := [⟨0, .num 1⟩, ⟨10, .num 3⟩, ⟨60, .num 1⟩]

def statesInterleaved : List StateRow :=
  [⟨.num 1, "Water Production"⟩, ⟨.num 3, "Manufacturing"⟩]

/-- Two Manufacturing-only events: the stream is empty once the category
toggle filters Manufacturing and Testing out. -/
def seqsAllManufacturing : List SeqRow := [⟨0, .num 3⟩, ⟨10, .num 3⟩]

def statesOnlyManufacturing : List StateRow := [⟨.num 3, "Manufacturing"⟩]

/-- Production events at minutes 0, 2880 and 3600: the first duration is two
full days, which drives the running day total past 1440 through the
day-boundary reset of line 321. -/
def seqsLongGap : List SeqRow := [⟨0, .num 1⟩, ⟨2880, .num 1⟩, ⟨3600, .num 1⟩]

def statesProductionOnly : List StateRow := [⟨.num 1, "Water Production"⟩]

/-- Two events whose state code 9 maps to the `State Type` string
`"Weird"`, absent from the category dictionary. -/
def seqsUnmapped : List SeqRow := [⟨0, .num 9⟩, ⟨60, .num 9⟩]

def statesUnmapped : List StateRow := [⟨.num 9, "Weird"⟩]

/-- A Production event on day 0, a 1400-minute Production event on day 1 and
an unmapped event on day 1: the unmapped row escapes the Clean Split
day-total check. -/
def seqsLeaky : List SeqRow := [⟨1410, .num 1⟩, ⟨1450, .num 1⟩, ⟨2850, .num 9⟩]

def statesLeaky : List StateRow :=
  [⟨.num 1, "Water Production"⟩, ⟨.num 9, "Weird"⟩]

/-- A 2000-minute Cleaning & Disinfection event followed by a Production
event. -/
def seqsLongMaint : List SeqRow := [⟨0, .num 2⟩, ⟨2000, .num 1⟩]

def statesMaintProd : List StateRow :=
  [⟨.num 2, "Cleaning & Disinfection"⟩, ⟨.num 1, "Water Production"⟩]

/-- An event table whose codes are numeric strings. -/
def seqsStrCodes : List SeqRow := [⟨0, .str "7"⟩, ⟨60, .str "7"⟩]

def statesStrCodes : List StateRow := [⟨.num 7, "Water Production"⟩]

/-- Proof infrastructure: the number of passes the spill loop still needs on
a given `remaining` (zero once `remaining ≤ 0`; every pass removes at least
`min 480 remaining`). -/
def spillFuelNeeded (q : ℚ) : ℕ :=
  if q ≤ 0 then 0 else (⌊q / 480⌋ + 1).toNat

/-! Helper lemmas. -/

attribute [local semireducible] Rat.add Rat.sub Rat.mul Rat.inv

theorem rat_floor_eq (q : ℚ) : q.floor = ⌊q⌋ := rfl

theorem spillNd_pos (pol : Policy) (r : Row) {q : ℚ} (hq : 0 < q) :
    0 < spillNd pol r q := by
  rw [spillNd]
  split
  · exact lt_min (lt_min (by norm_num) hq) (by norm_num)
  · exact lt_min (by norm_num) hq

theorem spillNd_le_1440 (pol : Policy) (r : Row) (q : ℚ) :
    spillNd pol r q ≤ 1440 := by
  rw [spillNd]
  split
  · exact le_trans (min_le_left _ _) (min_le_left _ _)
  · exact min_le_left _ _

theorem spillNd_le_q (pol : Policy) (r : Row) (q : ℚ) :
    spillNd pol r q ≤ q := by
  rw [spillNd]
  split
  · exact le_trans (min_le_left _ _) (min_le_right _ _)
  · exact min_le_right _ _

theorem spillNd_ge (pol : Policy) (r : Row) (q : ℚ) :
    min 480 q ≤ spillNd pol r q := by
  rw [spillNd]
  split
  · exact le_min (min_le_min (by norm_num) le_rfl) (min_le_left _ _)
  · exact min_le_min (by norm_num) le_rfl

theorem raw_ne_clean : (Policy.RawSplit == Policy.CleanSplit) = false := rfl

theorem spillNd_raw (r : Row) (q : ℚ) :
    spillNd .RawSplit r q = min 1440 q := by
  rw [spillNd, if_neg]
  simp [raw_ne_clean]

theorem spillKeep_raw (r : Row) (prev : Prev) :
    spillKeep .RawSplit r prev = true := by
  rw [spillKeep]
  simp [raw_ne_clean]

theorem spillNd_capped (r : Row) {q : ℚ} (hms : catMS r.cat = true) :
    spillNd .CleanSplit r q ≤ 480 := by
  rw [spillNd, if_pos]
  · exact min_le_right _ _
  · simp [hms]

theorem spillFuel_emit_facts (pol : Policy) (r : Row) :
    ∀ (fuel : ℕ) (q cdd : ℚ) (cdate : ℤ) (prev : Prev),
      ∀ o ∈ (spillFuel pol r fuel q cdd cdate prev).emit,
        o.cat = r.cat ∧ o.ts = r.ts ∧ 0 < o.dur ∧ o.dur ≤ 1440 ∧
          ((pol == Policy.CleanSplit && catMS r.cat) = true → o.dur ≤ 480) := by
  intro fuel
  induction fuel with
  | zero =>
    intro q cdd cdate prev o ho
    simp [spillFuel] at ho
  | succ n ih =>
    intro q cdd cdate prev o ho
    rw [spillFuel] at ho
    by_cases hq : 0 < q
    · rw [if_pos hq] at ho
      simp only [List.mem_append] at ho
      rcases ho with ho | ho
      · by_cases hk : spillKeep pol r prev = true
        · rw [if_pos hk, List.mem_singleton] at ho
          subst ho
          refine ⟨rfl, rfl, spillNd_pos pol r hq, spillNd_le_1440 pol r q, ?_⟩
          intro hcap
          rw [spillNd, if_pos hcap]
          exact min_le_right _ _
        · rw [if_neg hk] at ho
          simp at ho
      · exact ih _ _ _ _ o ho
    · rw [if_neg hq] at ho
      simp at ho

theorem spillFuel_cdd_lb (pol : Policy) (r : Row) :
    ∀ (fuel : ℕ) (q cdd : ℚ) (cdate : ℤ) (prev : Prev), 0 ≤ cdd →
      0 ≤ (spillFuel pol r fuel q cdd cdate prev).cdd := by
  intro fuel
  induction fuel with
  | zero => intro q cdd cdate prev h; simpa [spillFuel] using h
  | succ n ih =>
    intro q cdd cdate prev h
    rw [spillFuel]
    by_cases hq : 0 < q
    · rw [if_pos hq]
      exact ih _ _ _ _ (le_of_lt (spillNd_pos pol r hq))
    · rw [if_neg hq]
      exact h

theorem spillFuel_cdd_ub (pol : Policy) (r : Row) :
    ∀ (fuel : ℕ) (q cdd : ℚ) (cdate : ℤ) (prev : Prev), cdd ≤ 1440 →
      (spillFuel pol r fuel q cdd cdate prev).cdd ≤ 1440 := by
  intro fuel
  induction fuel with
  | zero => intro q cdd cdate prev h; simpa [spillFuel] using h
  | succ n ih =>
    intro q cdd cdate prev h
    rw [spillFuel]
    by_cases hq : 0 < q
    · rw [if_pos hq]
      exact ih _ _ _ _ (spillNd_le_1440 pol r q)
    · rw [if_neg hq]
      exact h

theorem spillFuelNeeded_decr {q nd : ℚ} (hq : 0 < q)
    (h1 : min 480 q ≤ nd) (h2 : nd ≤ q) :
    spillFuelNeeded (q - nd) < spillFuelNeeded q := by
  have hfl0 : 0 ≤ ⌊q / 480⌋ := Int.floor_nonneg.mpr (by positivity)
  have hRHS : spillFuelNeeded q = (⌊q / 480⌋ + 1).toNat :=
    if_neg (not_le.mpr hq)
  by_cases hz : q - nd ≤ 0
  · rw [spillFuelNeeded, if_pos hz, hRHS]
    omega
  · push_neg at hz
    have hql : 480 < q := by
      by_contra hle
      push_neg at hle
      rw [min_eq_right hle] at h1
      linarith
    have hnd480 : (480 : ℚ) ≤ nd := by
      rw [min_eq_left (le_of_lt hql)] at h1
      exact h1
    have hstep : (q - nd) / 480 ≤ q / 480 - 1 := by
      have h480 : q / 480 - 1 = (q - 480) / 480 := by ring
      rw [h480]
      gcongr
    have hfl : ⌊(q - nd) / 480⌋ ≤ ⌊q / 480⌋ - 1 := by
      have := Int.floor_le_floor hstep
      rwa [Int.floor_sub_one] at this
    rw [spillFuelNeeded, if_neg (not_le.mpr hz), hRHS]
    omega

theorem spillFuel_sum_raw (r : Row) :
    ∀ (fuel : ℕ) (q cdd : ℚ) (cdate : ℤ) (prev : Prev), 0 ≤ q →
      spillFuelNeeded q < fuel →
      (((spillFuel .RawSplit r fuel q cdd cdate prev).emit).map Row.dur).sum
        = q := by
  intro fuel
  induction fuel with
  | zero => intro q cdd cdate prev _ hf; omega
  | succ n ih =>
    intro q cdd cdate prev hq0 hf
    rw [spillFuel]
    by_cases hq : 0 < q
    · rw [if_pos hq]
      simp only [spillKeep_raw, spillNd_raw, ite_true, List.singleton_append,
        List.map_cons, List.sum_cons]
      rw [ih (q - min 1440 q) (min 1440 q) (cdate + 1)
        (spillPrev .RawSplit r prev)
        (by have := min_le_right (1440 : ℚ) q; linarith)
        (by
          have hd := spillFuelNeeded_decr hq
            (min_le_min (by norm_num : (480 : ℚ) ≤ 1440) le_rfl)
            (min_le_right (1440 : ℚ) q)
          omega)]
      ring
    · rw [if_neg hq]
      have : q = 0 := le_antisymm (not_lt.mp hq) hq0
      simp [this]

theorem spillFuelNeeded_lt_fuelFor (q : ℚ) :
    spillFuelNeeded q < fuelFor q := by
  rw [fuelFor, rat_floor_eq, spillFuelNeeded]
  by_cases hq : q ≤ 0
  · rw [if_pos hq]
    omega
  · rw [if_neg hq]
    push_neg at hq
    have : 0 ≤ ⌊q / 480⌋ := Int.floor_nonneg.mpr (by positivity)
    omega

theorem spill_sum_raw (r : Row) (q cdd : ℚ) (cdate : ℤ) (prev : Prev)
    (hq : 0 ≤ q) :
    (((spill .RawSplit r q cdd cdate prev).emit).map Row.dur).sum = q :=
  spillFuel_sum_raw r _ q cdd cdate prev hq (spillFuelNeeded_lt_fuelFor q)

theorem spill_emit_facts (pol : Policy) (r : Row) (q cdd : ℚ) (cdate : ℤ)
    (prev : Prev) :
    ∀ o ∈ (spill pol r q cdd cdate prev).emit,
      o.cat = r.cat ∧ o.ts = r.ts ∧ 0 < o.dur ∧ o.dur ≤ 1440 ∧
        ((pol == Policy.CleanSplit && catMS r.cat) = true → o.dur ≤ 480) :=
  spillFuel_emit_facts pol r _ q cdd cdate prev

theorem spill_cdd_lb (pol : Policy) (r : Row) (q cdd : ℚ) (cdate : ℤ)
    (prev : Prev) (h : 0 ≤ cdd) :
    0 ≤ (spill pol r q cdd cdate prev).cdd :=
  spillFuel_cdd_lb pol r _ q cdd cdate prev h

theorem spill_cdd_ub (pol : Policy) (r : Row) (q cdd : ℚ) (cdate : ℤ)
    (prev : Prev) (h : cdd ≤ 1440) :
    (spill pol r q cdd cdate prev).cdd ≤ 1440 :=
  spillFuel_cdd_ub pol r _ q cdd cdate prev h

theorem boundaryAdjust_emit (pol : Policy) (r : Row) (s : StepRes) :
    (boundaryAdjust pol r s).emit = s.emit := by
  rw [boundaryAdjust]
  split <;> rfl

theorem boundaryAdjust_cdd_lb (pol : Policy) (r : Row) (s : StepRes)
    (hd : 0 ≤ r.dur) (hs : 0 ≤ s.cdd) : 0 ≤ (boundaryAdjust pol r s).cdd := by
  rw [boundaryAdjust]
  split
  · split
    · exact hd
    · exact le_min hd (by norm_num)
  · exact hs

theorem boundaryAdjust_cdd_ub (pol : Policy) (r : Row) (s : StepRes)
    (hd : r.dur ≤ 1440) (hs : s.cdd ≤ 1440) :
    (boundaryAdjust pol r s).cdd ≤ 1440 := by
  rw [boundaryAdjust]
  split
  · split
    · exact hd
    · exact le_trans (min_le_right _ _) (by norm_num)
  · exact hs

theorem stepFirst_mem (pol : Policy) (cdd : ℚ) (prev : Prev) (r : Row) :
    ∀ o ∈ (stepFirst pol cdd prev r).1,
      o.cat = r.cat ∧ o.ts = r.ts ∧ o.dur = 1440 - cdd ∧ 0 < 1440 - cdd := by
  intro o ho
  rw [stepFirst] at ho
  split at ho
  case isTrue h =>
    split at ho
    · split at ho
      · simp at ho
      · simp only [List.mem_singleton] at ho
        subst ho
        exact ⟨rfl, rfl, rfl, h⟩
    · simp only [List.mem_singleton] at ho
      subst ho
      exact ⟨rfl, rfl, rfl, h⟩
  case isFalse h => simp at ho

theorem stepFirst_raw_pos {cdd : ℚ} (prev : Prev) (r : Row)
    (h : 0 < 1440 - cdd) :
    stepFirst .RawSplit cdd prev r = ([{ r with dur := 1440 - cdd }], prev) := by
  rw [stepFirst, if_pos h, if_neg]
  simp [raw_ne_clean]

theorem stepFirst_raw_nonpos {cdd : ℚ} (prev : Prev) (r : Row)
    (h : ¬ 0 < 1440 - cdd) :
    stepFirst .RawSplit cdd prev r = ([], prev) := by
  rw [stepFirst, if_neg h]

theorem stepEmit_mem (pol : Policy) (cdd : ℚ) (cdate : ℤ) (prev : Prev)
    (r : Row) :
    ∀ o ∈ (stepEmit pol cdd cdate prev r).emit, o.cat = r.cat ∧ o.ts = r.ts := by
  intro o ho
  rw [stepEmit] at ho
  split at ho
  · split at ho
    · simp at ho
    · rw [boundaryAdjust_emit] at ho
      simp only [List.mem_singleton] at ho
      subst ho
      exact ⟨rfl, rfl⟩
  · simp only [boundaryAdjust_emit, List.mem_append] at ho
    rcases ho with ho | ho
    · obtain ⟨hc, ht, _, _⟩ := stepFirst_mem pol cdd prev r o ho
      exact ⟨hc, ht⟩
    · obtain ⟨hc, ht, _, _, _⟩ := spill_emit_facts pol r _ cdd cdate _ o ho
      exact ⟨hc, ht⟩

theorem stepEmit_nonneg (pol : Policy) (cdd : ℚ) (cdate : ℤ) (prev : Prev)
    (r : Row) (hd : 0 ≤ r.dur) :
    ∀ o ∈ (stepEmit pol cdd cdate prev r).emit, 0 ≤ o.dur := by
  intro o ho
  rw [stepEmit] at ho
  split at ho
  · split at ho
    · simp at ho
    · rw [boundaryAdjust_emit] at ho
      simp only [List.mem_singleton] at ho
      subst ho
      exact hd
  · simp only [boundaryAdjust_emit, List.mem_append] at ho
    rcases ho with ho | ho
    · obtain ⟨_, _, hdur, hpos⟩ := stepFirst_mem pol cdd prev r o ho
      rw [hdur]
      exact le_of_lt hpos
    · obtain ⟨_, _, hpos, _, _⟩ := spill_emit_facts pol r _ cdd cdate _ o ho
      exact le_of_lt hpos

theorem stepEmit_raw (cdd : ℚ) (cdate : ℤ) (prev : Prev) (r : Row)
    (h0 : 0 ≤ cdd) (hd : 0 ≤ r.dur) :
    (∀ o ∈ (stepEmit .RawSplit cdd cdate prev r).emit, o.dur ≤ 1440) ∧
      0 ≤ (stepEmit .RawSplit cdd cdate prev r).cdd := by
  rw [stepEmit]
  split
  case isTrue h =>
    rw [if_neg (by simp [raw_ne_clean])]
    constructor
    · intro o ho
      rw [boundaryAdjust_emit] at ho
      simp only [List.mem_singleton] at ho
      subst ho
      linarith
    · exact boundaryAdjust_cdd_lb _ _ _ hd
        (by show (0 : ℚ) ≤ cdd + r.dur; linarith)
  case isFalse h =>
    constructor
    · intro o ho
      simp only [boundaryAdjust_emit, List.mem_append] at ho
      rcases ho with ho | ho
      · obtain ⟨_, _, hdur, _⟩ := stepFirst_mem _ cdd prev r o ho
        rw [hdur]
        linarith
      · obtain ⟨_, _, _, hle, _⟩ := spill_emit_facts _ r _ cdd cdate _ o ho
        exact hle
    · exact boundaryAdjust_cdd_lb _ _ _ hd (spill_cdd_lb _ r _ cdd cdate _ h0)

theorem stepEmit_raw_sum (cdd : ℚ) (cdate : ℤ) (prev : Prev) (r : Row)
    (h0 : 0 ≤ cdd) (h1 : cdd ≤ 1440) (hd0 : 0 ≤ r.dur) (hd1 : r.dur ≤ 1440) :
    (((stepEmit .RawSplit cdd cdate prev r).emit).map Row.dur).sum = r.dur ∧
      0 ≤ (stepEmit .RawSplit cdd cdate prev r).cdd ∧
      (stepEmit .RawSplit cdd cdate prev r).cdd ≤ 1440 := by
  rw [stepEmit]
  split
  case isTrue h =>
    rw [if_neg (by simp [raw_ne_clean])]
    refine ⟨?_, boundaryAdjust_cdd_lb _ _ _ hd0
        (by show (0 : ℚ) ≤ cdd + r.dur; linarith),
      boundaryAdjust_cdd_ub _ _ _ hd1
        (by show cdd + r.dur ≤ (1440 : ℚ); linarith)⟩
    rw [boundaryAdjust_emit]
    simp
  case isFalse h =>
    refine ⟨?_, boundaryAdjust_cdd_lb _ _ _ hd0 (spill_cdd_lb _ _ _ _ _ _ h0),
      boundaryAdjust_cdd_ub _ _ _ hd1 (spill_cdd_ub _ _ _ _ _ _ h1)⟩
    rw [boundaryAdjust_emit]
    by_cases hrem : 0 < 1440 - cdd
    · rw [stepFirst_raw_pos prev r hrem]
      simp only [List.map_append, List.sum_append, List.map_cons,
        List.sum_cons, List.map_nil, List.sum_nil, List.singleton_append]
      rw [spill_sum_raw r (r.dur - (1440 - cdd)) cdd cdate _ (by linarith)]
      ring
    · rw [stepFirst_raw_nonpos prev r hrem]
      have hz : (1440 : ℚ) - cdd = 0 := le_antisymm (not_lt.mp hrem) (by linarith)
      simp only [List.nil_append]
      rw [spill_sum_raw r (r.dur - (1440 - cdd)) cdd cdate _ (by rw [hz]; linarith),
        hz]
      ring

theorem runSplit_mem (pol : Policy) :
    ∀ (l : List Row) (cdd : ℚ) (cdate : ℤ) (prev : Prev),
      ∀ o ∈ runSplit pol cdd cdate prev l, ∃ r ∈ l, o.cat = r.cat ∧ o.ts = r.ts := by
  intro l
  induction l with
  | nil => intro cdd cdate prev o ho; simp [runSplit] at ho
  | cons r rs ih =>
    intro cdd cdate prev o ho
    simp only [runSplit, List.mem_append] at ho
    rcases ho with ho | ho
    · obtain ⟨hc, ht⟩ := stepEmit_mem pol cdd cdate prev r o ho
      exact ⟨r, List.mem_cons_self r rs, hc, ht⟩
    · obtain ⟨r', hr', hp⟩ := ih _ _ _ o ho
      exact ⟨r', List.mem_cons_of_mem r hr', hp⟩

theorem runSplit_nonneg (pol : Policy) :
    ∀ (l : List Row) (cdd : ℚ) (cdate : ℤ) (prev : Prev),
      (∀ r ∈ l, 0 ≤ r.dur) →
      ∀ o ∈ runSplit pol cdd cdate prev l, 0 ≤ o.dur := by
  intro l
  induction l with
  | nil => intro cdd cdate prev _ o ho; simp [runSplit] at ho
  | cons r rs ih =>
    intro cdd cdate prev hl o ho
    simp only [runSplit, List.mem_append] at ho
    rcases ho with ho | ho
    · exact stepEmit_nonneg pol cdd cdate prev r
        (hl r (List.mem_cons_self r rs)) o ho
    · exact ih _ _ _ (fun x hx => hl x (List.mem_cons_of_mem r hx)) o ho

theorem runSplit_raw_le (l : List Row) :
    ∀ (cdd : ℚ) (cdate : ℤ) (prev : Prev), 0 ≤ cdd →
      (∀ r ∈ l, 0 ≤ r.dur) →
      ∀ o ∈ runSplit .RawSplit cdd cdate prev l, o.dur ≤ 1440 := by
  induction l with
  | nil => intro cdd cdate prev _ _ o ho; simp [runSplit] at ho
  | cons r rs ih =>
    intro cdd cdate prev h0 hl o ho
    simp only [runSplit, List.mem_append] at ho
    have hd := hl r (List.mem_cons_self r rs)
    rcases ho with ho | ho
    · exact (stepEmit_raw cdd cdate prev r h0 hd).1 o ho
    · exact ih _ _ _ (stepEmit_raw cdd cdate prev r h0 hd).2
        (fun x hx => hl x (List.mem_cons_of_mem r hx)) o ho

theorem runSplit_raw_sum (l : List Row) :
    ∀ (cdd : ℚ) (cdate : ℤ) (prev : Prev), 0 ≤ cdd → cdd ≤ 1440 →
      (∀ r ∈ l, 0 ≤ r.dur ∧ r.dur ≤ 1440) → (l.map Row.ts).Nodup →
      ∀ e ∈ l,
        (((runSplit .RawSplit cdd cdate prev l).filter
            (fun o => decide (o.ts = e.ts))).map Row.dur).sum = e.dur := by
  induction l with
  | nil => intro cdd cdate prev _ _ _ _ e he; simp at he
  | cons r rs ih =>
    intro cdd cdate prev h0 h1 hl hnd e he
    have hd := hl r (List.mem_cons_self r rs)
    have hstep := stepEmit_raw_sum cdd cdate prev r h0 h1 hd.1 hd.2
    rw [List.map_cons, List.nodup_cons] at hnd
    simp only [runSplit, List.filter_append, List.map_append, List.sum_append]
    rcases List.mem_cons.mp he with he | he
    · subst he
      have hfe : ((stepEmit .RawSplit cdd cdate prev e).emit).filter
          (fun o => decide (o.ts = e.ts)) =
          (stepEmit .RawSplit cdd cdate prev e).emit := by
        rw [List.filter_eq_self]
        intro o ho
        have := (stepEmit_mem _ cdd cdate prev e o ho).2
        simp [this]
      have hfr : (runSplit .RawSplit (stepEmit .RawSplit cdd cdate prev e).cdd
          (stepEmit .RawSplit cdd cdate prev e).cdate
          (stepEmit .RawSplit cdd cdate prev e).prev rs).filter
          (fun o => decide (o.ts = e.ts)) = [] := by
        rw [List.filter_eq_nil]
        intro o ho
        obtain ⟨r', hr', _, ht⟩ := runSplit_mem _ rs _ _ _ o ho
        have hne : e.ts ≠ o.ts := by
          intro hcontra
          exact hnd.1 (by rw [hcontra, ht]; exact List.mem_map_of_mem Row.ts hr')
        simp only [decide_eq_true_eq]
        exact fun hcontra => hne hcontra.symm
      rw [hfe, hfr, hstep.1]
      simp
    · have hfe : ((stepEmit .RawSplit cdd cdate prev r).emit).filter
          (fun o => decide (o.ts = e.ts)) = [] := by
        rw [List.filter_eq_nil]
        intro o ho
        have ht := (stepEmit_mem _ cdd cdate prev r o ho).2
        have : o.ts ≠ e.ts := by
          rw [ht]
          intro hcontra
          exact hnd.1 (by rw [hcontra]; exact List.mem_map_of_mem Row.ts he)
        simp [this]
      rw [hfe]
      simp only [List.map_nil, List.sum_nil, zero_add]
      exact ih _ _ _ hstep.2.1 hstep.2.2
        (fun x hx => hl x (List.mem_cons_of_mem r hx)) hnd.2 e he

theorem dateTotal_perm {l₁ l₂ : List Row} (h : l₁.Perm l₂) (d : ℤ) :
    dateTotal l₁ d = dateTotal l₂ d :=
  List.Perm.sum_eq (List.Perm.map _ (h.filter _))

theorem dateTotal_sublist_le {l₁ l₂ : List Row} (h : l₁.Sublist l₂)
    (hn : ∀ r ∈ l₂, 0 ≤ r.dur) (d : ℤ) : dateTotal l₁ d ≤ dateTotal l₂ d := by
  apply List.Sublist.sum_le_sum ((h.filter _).map _)
  intro a ha
  simp only [List.mem_map, List.mem_filter] at ha
  obtain ⟨r, ⟨hr, _⟩, rfl⟩ := ha
  exact hn r hr

theorem mappedDateTotal_eq {l : List Row} (hm : ∀ r ∈ l, r.cat ≠ none)
    (d : ℤ) : mappedDateTotal l d = dateTotal l d := by
  rw [mappedDateTotal, dateTotal]
  have hfc : l.filter (fun r => decide (r.date = d) && !(decide (r.cat = none)))
      = l.filter (fun r => decide (r.date = d)) :=
    List.filter_congr (fun a ha => by simp [hm a ha])
  rw [hfc]

theorem sortTs_perm (l : List Row) : (sortTs l).Perm l :=
  List.perm_insertionSort _ l

theorem sortDateTs_perm (l : List Row) : (sortDateTs l).Perm l :=
  List.perm_insertionSort _ l

theorem prunePass_sublist : ∀ (l : List Row) (p : Option Row),
    (prunePass p l).Sublist l := by
  intro l
  induction l with
  | nil => intro p; simp [prunePass]
  | cons r rs ih =>
    intro p
    rw [prunePass]
    by_cases hd : dupMS p r = true
    · rw [if_pos hd, List.nil_append]
      exact (ih (some r)).cons r
    · rw [if_neg hd, List.singleton_append]
      exact (ih (some r)).cons₂ r

theorem optCatEq_iff (a b : Option Category) :
    optCatEq a b = true ↔ ∃ c, a = some c ∧ b = some c := by
  cases a with
  | none => simp [optCatEq]
  | some x =>
    cases b with
    | none => simp [optCatEq]
    | some y =>
      constructor
      · intro h
        have hxy : x = y := by simpa [optCatEq] using h
        exact ⟨y, by rw [hxy], rfl⟩
      · rintro ⟨c, hx, hy⟩
        have hx2 : x = c := Option.some.inj hx
        have hy2 : y = c := Option.some.inj hy
        simp [optCatEq, hx2, hy2]

theorem catMS_some {c : Option Category} (h : catMS c = true) :
    ∃ x, c = some x := by
  cases c with
  | none => simp [catMS] at h
  | some x => exact ⟨x, rfl⟩

theorem dupMS_some_iff (q r : Row) :
    dupMS (some q) r = true ↔
      q.date = r.date ∧ optCatEq r.cat q.cat = true ∧ catMS r.cat = true := by
  simp [dupMS, and_assoc]

theorem dupMS_trans {q r h : Row} (h1 : dupMS (some q) r = true)
    (h2 : dupMS (some r) h = false) : dupMS (some q) h = false := by
  rw [dupMS_some_iff] at h1
  obtain ⟨hdate, hcat, hms⟩ := h1
  obtain ⟨c, hrc, hqc⟩ := (optCatEq_iff _ _).mp hcat
  by_contra hcontra
  rw [Bool.not_eq_false, dupMS_some_iff] at hcontra
  obtain ⟨hdate2, hcat2, hms2⟩ := hcontra
  obtain ⟨c2, hhc, hqc2⟩ := (optCatEq_iff _ _).mp hcat2
  have hcc : c2 = c := by rw [hqc] at hqc2; exact (Option.some.inj hqc2).symm
  have : dupMS (some r) h = true := by
    rw [dupMS_some_iff]
    refine ⟨by rw [← hdate]; exact hdate2, ?_, hms2⟩
    rw [optCatEq_iff]
    exact ⟨c, by rw [hhc, hcc], hrc⟩
  rw [this] at h2
  exact Bool.noConfusion h2

theorem prunePass_chain : ∀ (l : List Row) (p : Option Row),
    List.Chain' (fun a b => dupMS (some a) b = false) (prunePass p l) ∧
      (∀ q, p = some q →
        ∀ h ∈ (prunePass p l).head?, dupMS (some q) h = false) := by
  intro l
  induction l with
  | nil =>
    intro p
    refine ⟨List.chain'_nil, ?_⟩
    intro q _ h hh
    simp [prunePass] at hh
  | cons r rs ih =>
    intro p
    by_cases hd : dupMS p r = true
    · rw [prunePass, if_pos hd, List.nil_append]
      refine ⟨(ih (some r)).1, ?_⟩
      intro q hq h hh
      subst hq
      exact dupMS_trans hd ((ih (some r)).2 r rfl h hh)
    · rw [prunePass, if_neg hd, List.singleton_append]
      refine ⟨List.chain'_cons'.mpr ⟨(ih (some r)).2 r rfl, (ih (some r)).1⟩, ?_⟩
      intro q hq h hh
      subst hq
      simp only [List.head?_cons, Option.mem_def, Option.some.injEq] at hh
      subst hh
      exact Bool.not_eq_true _ ▸ hd

theorem dupMS_false_imp {a b : Row} (hf : dupMS (some a) b = false) :
    a.date = b.date → ¬(a.cat = b.cat ∧ catMS b.cat = true) := by
  intro hdate ⟨hcat, hms⟩
  obtain ⟨c, hbc⟩ := catMS_some hms
  have : dupMS (some a) b = true := by
    rw [dupMS_some_iff]
    refine ⟨hdate, ?_, hms⟩
    rw [optCatEq_iff]
    exact ⟨c, hbc, by rw [hcat, hbc]⟩
  rw [this] at hf
  exact Bool.noConfusion hf

theorem rawDeltas_length : ∀ (l : List ℚ), (rawDeltas l).length = l.length - 1 := by
  intro l
  induction l with
  | nil => rfl
  | cons a t ih =>
    cases t with
    | nil => rfl
    | cons b t2 =>
      rw [rawDeltas, List.length_cons, ih]
      simp

theorem zipWith_mkRow_ts : ∀ (ms : List (SeqRow × Option String)) (ds : List ℚ),
    ms.length = ds.length →
    (List.zipWith mkRow ms ds).map Row.ts = ms.map (fun m => m.1.ts) := by
  intro ms
  induction ms with
  | nil => intro ds _; simp
  | cons m ms ih =>
    intro ds h
    cases ds with
    | nil => simp at h
    | cons d ds =>
      simp only [List.zipWith_cons_cons, List.map_cons]
      rw [ih ds (by simpa using h)]
      rfl

theorem zipWith_mkRow_dur : ∀ (ms : List (SeqRow × Option String)) (ds : List ℚ),
    ms.length = ds.length →
    (List.zipWith mkRow ms ds).map Row.dur = ds := by
  intro ms
  induction ms with
  | nil => intro ds h; cases ds with
    | nil => rfl
    | cons d ds => simp at h
  | cons m ms ih =>
    intro ds h
    cases ds with
    | nil => simp at h
    | cons d ds =>
      simp only [List.zipWith_cons_cons, List.map_cons]
      rw [ih ds (by simpa using h)]
      rfl

theorem step3Rows_dur_spec (seqs : List SeqRow) (states : List StateRow)
    (h : step3Rows seqs states ≠ []) :
    (step3Rows seqs states).map Row.dur =
      rawDeltas ((step3Rows seqs states).map Row.ts) ++
        [medianQ (rawDeltas ((step3Rows seqs states).map Row.ts))] := by
  have hdef : step3Rows seqs states =
      List.zipWith mkRow (mergeLeft (coerce_codes seqs) states)
        (rawDeltas ((mergeLeft (coerce_codes seqs) states).map (fun m => m.1.ts))
          ++ [medianQ (rawDeltas
            ((mergeLeft (coerce_codes seqs) states).map (fun m => m.1.ts)))]) := rfl
  have hne : mergeLeft (coerce_codes seqs) states ≠ [] := by
    intro hcontra
    apply h
    rw [hdef, hcontra]
    rfl
  have hlen : (mergeLeft (coerce_codes seqs) states).length =
      (rawDeltas ((mergeLeft (coerce_codes seqs) states).map (fun m => m.1.ts))
        ++ [medianQ (rawDeltas
          ((mergeLeft (coerce_codes seqs) states).map (fun m => m.1.ts)))]).length := by
    rw [List.length_append, List.length_singleton, rawDeltas_length,
      List.length_map]
    have : 0 < (mergeLeft (coerce_codes seqs) states).length :=
      List.length_pos.mpr hne
    omega
  have hts := zipWith_mkRow_ts _ _ hlen
  have hdur := zipWith_mkRow_dur _ _ hlen
  rw [hdef, hdur, hts]

theorem cleanPost_bounds (S : List Row) (hSnn : ∀ o ∈ S, 0 ≤ o.dur)
    (hSm : ∀ o ∈ S, o.cat ≠ none) :
    (∀ d, (∃ r ∈ cleanPost S, r.date = d) → dateTotal (cleanPost S) d ≤ 1440) ∧
      List.Chain' (fun a b => a.date = b.date →
        ¬(a.cat = b.cat ∧ catMS b.cat = true)) (cleanPost S) := by
  have hsub := prunePass_sublist (sortDateTs (S.filter (validDay S))) none
  have hperm := sortDateTs_perm (S.filter (validDay S))
  constructor
  · intro d hd
    obtain ⟨r0, hr0, hd0⟩ := hd
    rw [cleanPost] at hr0 ⊢
    have hr0v : r0 ∈ S.filter (validDay S) :=
      (hperm.mem_iff).mp (hsub.subset hr0)
    obtain ⟨hr0S, hp⟩ := List.mem_filter.mp hr0v
    rw [validDay, Bool.and_eq_true] at hp
    have hmt : mappedDateTotal S d ≤ 1440 := by
      have := of_decide_eq_true hp.2
      rwa [hd0] at this
    have hvnn : ∀ o ∈ sortDateTs (S.filter (validDay S)), 0 ≤ o.dur := by
      intro o ho
      exact hSnn o (List.mem_filter.mp ((hperm.mem_iff).mp ho)).1
    calc dateTotal (prunePass none (sortDateTs (S.filter (validDay S)))) d
        ≤ dateTotal (sortDateTs (S.filter (validDay S))) d :=
          dateTotal_sublist_le hsub hvnn d
      _ = dateTotal (S.filter (validDay S)) d := dateTotal_perm hperm d
      _ ≤ dateTotal S d := dateTotal_sublist_le (List.filter_sublist S) hSnn d
      _ = mappedDateTotal S d := (mappedDateTotal_eq hSm d).symm
      _ ≤ 1440 := hmt
  · rw [cleanPost]
    exact ((prunePass_chain (sortDateTs (S.filter (validDay S))) none).1).imp
      (fun a b hf => dupMS_false_imp hf)

/-! Claim theorems. -/

/-- C1 (counterexample): on the spec scenario — events at 2024-01-01T23:00
(Production), 2024-01-02T02:00 (Production), 2024-01-02T04:00 (Maintenance) —
Raw Split does not split the first event at midnight: the output holds the
event whole (180 minutes on day 0), and the portions derived from the first
event are not the claimed 60 and 120 minutes. -/
theorem C1_counterexample :
    create_efficiency_metrics .RawSplit false seqsScenario statesScenario =
      some [⟨1380, some .Production, 0, 180⟩, ⟨1560, some .Production, 1, 120⟩,
        ⟨1680, some .Maintenance, 1, 150⟩] ∧
    (create_efficiency_metrics .RawSplit false seqsScenario
        statesScenario).map
      (fun l => (l.filter (fun r => decide (r.ts = 1380))).map Row.dur) ≠
      some [60, 120] := by
  decide

/-- C1 (amended): on the spec scenario under Raw Split, splitting happens only
when a day's running total would exceed 1440 minutes, so the first event stays
one 180-minute segment attributed to 2024-01-01 (day 0). -/
theorem C1_theorem :
    (create_efficiency_metrics .RawSplit false seqsScenario
        statesScenario).map
      (fun l => (l.filter (fun r => decide (r.ts = 1380))).map
        (fun r => (r.date, r.dur))) = some [(0, 180)] := by
  decide

/-- C2 (counterexample): with a Manufacturing event between two Production
events, the retained first event keeps duration 10 (its delta to the removed
Manufacturing event), not 60 (the delta to the next retained event):
durations are computed before the category filter, not after. -/
theorem C2_counterexample :
    create_efficiency_metrics .ShowAll false seqsInterleaved
        statesInterleaved =
      some [⟨0, some .Production, 0, 10⟩, ⟨60, some .Production, 0, 30⟩] ∧
    (10 : ℚ) ≠ |(60 : ℚ) - 0| := by
  decide

/-- C2 (amended): durations are attached to the merged stream before the
category-visibility filter runs: every row's duration is the absolute delta
to the next row of the unfiltered merged stream (the last one getting the
median), and the filter then passes rows through unchanged, so a removed
event's time is dropped rather than absorbed. -/
theorem C2_theorem :
    ∀ (seqs : List SeqRow) (states : List StateRow) (sm : Bool),
      (step3Rows seqs states ≠ [] →
        (step3Rows seqs states).map Row.dur =
          rawDeltas ((step3Rows seqs states).map Row.ts) ++
            [medianQ (rawDeltas ((step3Rows seqs states).map Row.ts))]) ∧
      ∀ r ∈ filteredRows sm seqs states, r ∈ step3Rows seqs states := by
  intro seqs states sm
  constructor
  · exact step3Rows_dur_spec seqs states
  · intro r hr
    rw [filteredRows] at hr
    by_cases hsm : sm = true
    · rwa [if_pos hsm] at hr
    · rw [if_neg hsm] at hr
      exact (List.mem_filter.mp hr).1

theorem C2_witness :
    (step3Rows seqsInterleaved statesInterleaved).map Row.dur =
      rawDeltas ((step3Rows seqsInterleaved statesInterleaved).map Row.ts) ++
        [medianQ (rawDeltas
          ((step3Rows seqsInterleaved statesInterleaved).map Row.ts))] :=
  (C2_theorem seqsInterleaved statesInterleaved false).1 (by decide)

/-- C3 (counterexample): a stream holding only Manufacturing events is empty
after the category filter, and Raw Split then fails (the `iloc[0]` of line
263 raises an IndexError) instead of returning an empty result. -/
theorem C3_counterexample :
    create_efficiency_metrics .RawSplit false seqsAllManufacturing
      statesOnlyManufacturing = none := by
  decide

/-- C3 (amended): on a stream that is empty after category filtering, Hide
and Show All return an empty result without error, while Clean Split and Raw
Split fail on the `iloc[0]` of an empty frame. -/
theorem C3_theorem :
    ∀ (seqs : List SeqRow) (states : List StateRow) (sm : Bool),
      filteredRows sm seqs states = [] →
      create_efficiency_metrics .Hide sm seqs states = some [] ∧
      create_efficiency_metrics .ShowAll sm seqs states = some [] ∧
      create_efficiency_metrics .RawSplit sm seqs states = none ∧
      create_efficiency_metrics .CleanSplit sm seqs states = none := by
  intro seqs states sm h
  refine ⟨?_, ?_, ?_, ?_⟩ <;>
    simp [create_efficiency_metrics, h, hidePolicy, sortTs, splitStates]

theorem C3_witness :
    create_efficiency_metrics .Hide false seqsAllManufacturing
        statesOnlyManufacturing = some [] ∧
    create_efficiency_metrics .ShowAll false seqsAllManufacturing
        statesOnlyManufacturing = some [] ∧
    create_efficiency_metrics .RawSplit false seqsAllManufacturing
        statesOnlyManufacturing = none ∧
    create_efficiency_metrics .CleanSplit false seqsAllManufacturing
        statesOnlyManufacturing = none :=
  C3_theorem seqsAllManufacturing statesOnlyManufacturing false (by decide)

/-- C4 (counterexample): in the long-gap stream the second event has duration
720 but, because the day-boundary reset of line 321 pushed the running total
to 2880, its Raw Split portions are 1440 (day 1) and 720 (day 2), summing to
2160 — the portions of a split event need not sum to its duration. -/
theorem C4_counterexample :
    (step3Rows seqsLongGap statesProductionOnly).map
      (fun r => (r.ts, r.dur)) = [(0, 2880), (2880, 720), (3600, 1800)] ∧
    (create_efficiency_metrics .RawSplit false seqsLongGap
        statesProductionOnly).map
      (fun l => (l.filter (fun r => decide (r.ts = 2880))).map
        (fun r => (r.date, r.dur))) = some [(1, 1440), (2, 720)] ∧
    (1440 : ℚ) + 720 ≠ 720 := by
  decide

/-- C4 (amended): when every duration lies in [0, 1440] the running day total
stays within the day budget, and then for every event the Raw Split output
portions carrying its timestamp sum exactly to its duration. -/
theorem C4_theorem :
    ∀ (l out : List Row),
      (∀ r ∈ l, 0 ≤ r.dur ∧ r.dur ≤ 1440) → (l.map Row.ts).Nodup →
      splitStates .RawSplit l = some out →
      ∀ e ∈ l,
        ((out.filter (fun o => decide (o.ts = e.ts))).map Row.dur).sum
          = e.dur := by
  intro l out hl hnd hs e he
  cases l with
  | nil => simp [splitStates] at hs
  | cons r rs =>
    simp only [splitStates, Option.some.injEq] at hs
    subst hs
    exact runSplit_raw_sum (r :: rs) 0 r.date none le_rfl (by norm_num)
      hl hnd e he

theorem C4_witness :
    ((([⟨0, some Category.Production, 0, 1000⟩,
        ⟨5, some Category.Production, 0, 440⟩,
        ⟨5, some Category.Production, 1, 560⟩] : List Row).filter
      (fun o => decide (o.ts = (⟨5, some Category.Production, 0, 1000⟩ : Row).ts))).map
        Row.dur).sum = 1000 :=
  C4_theorem
    [⟨0, some .Production, 0, 1000⟩, ⟨5, some .Production, 0, 1000⟩]
    [⟨0, some .Production, 0, 1000⟩, ⟨5, some .Production, 0, 440⟩,
      ⟨5, some .Production, 1, 560⟩]
    (by decide) (by decide) (by decide)
    ⟨5, some .Production, 0, 1000⟩ (by decide)

/-- C5 (counterexample): two events whose `State Type` is absent from the
category dictionary are not dropped — the output retains both rows, each
carrying a null category. -/
theorem C5_counterexample :
    create_efficiency_metrics .ShowAll false seqsUnmapped statesUnmapped =
      some [⟨0, none, 0, 60⟩, ⟨60, none, 0, 60⟩] ∧
    (create_efficiency_metrics .ShowAll false seqsUnmapped
        statesUnmapped).map (List.map Row.cat) = some [none, none] := by
  decide

/-- C5 (amended): a row whose `State Type` failed to map (null category) is
retained by the category-visibility filter and appears in the Show All
output: unmapped events are kept with a null category, not dropped. -/
theorem C5_theorem :
    ∀ (seqs : List SeqRow) (states : List StateRow) (r : Row)
      (out : List Row),
      r ∈ step3Rows seqs states → r.cat = none →
      create_efficiency_metrics .ShowAll false seqs states = some out →
      r ∈ out := by
  intro seqs states r out hr hc hout
  simp only [create_efficiency_metrics, Option.some.injEq] at hout
  subst hout
  rw [filteredRows, if_neg (by simp)]
  exact List.mem_filter.mpr ⟨hr, by simp [catMT, hc]⟩

theorem C5_witness :
    (⟨0, none, 0, 60⟩ : Row) ∈
      [(⟨0, none, 0, 60⟩ : Row), ⟨60, none, 0, 60⟩] :=
  C5_theorem seqsUnmapped statesUnmapped ⟨0, none, 0, 60⟩
    [⟨0, none, 0, 60⟩, ⟨60, none, 0, 60⟩] (by decide) rfl (by decide)

/-- C6 (confirmed): the Hide policy keeps exactly the rows of the days whose
pre-policy total is at most 1440 minutes — every date present in its output
totals at most 1440, a date present before but absent after had a total over
1440, and retained rows are rows of the input, durations untouched. -/
theorem C6_theorem :
    ∀ (l : List Row) (d : ℤ),
      ((∃ r ∈ hidePolicy l, r.date = d) →
        dateTotal (hidePolicy l) d ≤ 1440) ∧
      ((∃ r ∈ l, r.date = d) → (∀ r ∈ hidePolicy l, r.date ≠ d) →
        1440 < dateTotal l d) ∧
      (∀ r ∈ hidePolicy l, r ∈ l) := by
  intro l d
  refine ⟨?_, ?_, ?_⟩
  · rintro ⟨r0, hr0, hd0⟩
    rw [hidePolicy] at hr0
    obtain ⟨hr0l, hp0⟩ := List.mem_filter.mp hr0
    have hDT : dateTotal l d ≤ 1440 := by
      have := of_decide_eq_true hp0
      rwa [hd0] at this
    have key : (hidePolicy l).filter (fun r => decide (r.date = d)) =
        l.filter (fun r => decide (r.date = d)) := by
      rw [hidePolicy, List.filter_filter]
      apply List.filter_congr
      intro a _
      by_cases hq : a.date = d
      · simp [hq, hDT]
      · simp [hq]
    rw [dateTotal, key]
    exact hDT
  · rintro ⟨r0, hr0, hd0⟩ habs
    by_contra hle
    push_neg at hle
    apply habs r0 _ hd0
    exact List.mem_filter.mpr ⟨hr0, by rw [hd0]; exact decide_eq_true hle⟩
  · intro r hr
    exact (List.mem_filter.mp hr).1

theorem C6_witness : (1440 : ℚ) <
    dateTotal [(⟨0, some Category.Production, 0, 2000⟩ : Row)] 0 :=
  (C6_theorem [⟨0, some .Production, 0, 2000⟩] 0).2.1 (by decide) (by decide)

/-- C7 (counterexample): on the leaky stream the Clean Split output keeps a
1400-minute Production row and a 720-minute null-category row on day 1
(null-category rows are invisible to the 1440 check, which groups by `date`
and `State Type`), so day 1 of the output totals 2120 minutes. -/
theorem C7_counterexample :
    create_efficiency_metrics .CleanSplit false seqsLeaky statesLeaky =
      some [⟨1410, some .Production, 0, 40⟩,
        ⟨1450, some .Production, 1, 1400⟩, ⟨2850, none, 1, 720⟩] ∧
    ¬ dateTotal [⟨1410, some .Production, 0, 40⟩,
        ⟨1450, some .Production, 1, 1400⟩,
        (⟨2850, none, 1, 720⟩ : Row)] 1 ≤ 1440 := by
  decide

/-- C7 (amended): when every event carries a mapped category and nonnegative
durations, the Clean Split output satisfies both invariants: every date of
the output totals at most 1440 minutes, and no two adjacent output rows of
one date share a Maintenance or System category. -/
theorem C7_theorem :
    ∀ (l out : List Row),
      (∀ r ∈ l, 0 ≤ r.dur) → (∀ r ∈ l, r.cat ≠ none) →
      (splitStates .CleanSplit l).map cleanPost = some out →
      (∀ d, (∃ r ∈ out, r.date = d) → dateTotal out d ≤ 1440) ∧
        List.Chain' (fun a b => a.date = b.date →
          ¬(a.cat = b.cat ∧ catMS b.cat = true)) out := by
  intro l out h1 h2 hout
  cases l with
  | nil => simp [splitStates] at hout
  | cons r rs =>
    simp only [splitStates, Option.map_some', Option.some.injEq] at hout
    subst hout
    refine cleanPost_bounds _ ?_ ?_
    · exact runSplit_nonneg .CleanSplit (r :: rs) 0 r.date none h1
    · intro o ho
      obtain ⟨r', hr', hc, _⟩ :=
        runSplit_mem .CleanSplit (r :: rs) 0 r.date none o ho
      rw [hc]
      exact h2 r' hr'

theorem C7_witness :
    dateTotal [(⟨0, some Category.Production, 0, 100⟩ : Row)] 0 ≤ 1440 :=
  (C7_theorem [⟨0, some .Production, 0, 100⟩]
      [⟨0, some .Production, 0, 100⟩] (by decide) (by decide) (by decide)).1
    0 (by decide)

/-- C8 (counterexample): a 2000-minute Cleaning & Disinfection event is split
by Clean Split into a first portion of 1440 minutes — far above the claimed
480-minute cap — and that portion survives to the final output. -/
theorem C8_counterexample :
    create_efficiency_metrics .CleanSplit false seqsLongMaint
      statesMaintProd = some [⟨0, some .Maintenance, 0, 1440⟩] ∧
    ¬ (1440 : ℚ) ≤ 480 := by
  decide

/-- C8 (amended): only the continuation portions that the spill loop emits
for a Maintenance/System event are capped at 480 minutes; the first portion,
left on the event's own date, is bounded only by the remaining day budget. -/
theorem C8_theorem :
    ∀ (r : Row) (q cdd : ℚ) (cdate : ℤ) (prev : Prev),
      catMS r.cat = true →
      ∀ o ∈ (spill .CleanSplit r q cdd cdate prev).emit, o.dur ≤ 480 := by
  intro r q cdd cdate prev hms o ho
  obtain ⟨_, _, _, _, hcap⟩ :=
    spill_emit_facts .CleanSplit r q cdd cdate prev o ho
  exact hcap (by simp [hms])

theorem C8_witness :
    (⟨0, some Category.Maintenance, 1, 480⟩ : Row).dur ≤ 480 :=
  C8_theorem ⟨0, some .Maintenance, 0, 2000⟩ 560 0 0 none (by decide)
    ⟨0, some .Maintenance, 1, 480⟩ (by decide)

/-- C9 (counterexample): the code coerces the caller's `code` column in place
(line 213): after a call on a table whose codes are the numeric strings "7",
the caller's table holds the number 7 instead — the event table is mutated. -/
theorem C9_counterexample :
    (create_efficiency_metrics_tables .ShowAll false seqsStrCodes
        statesStrCodes).2.1 ≠ seqsStrCodes ∧
    (create_efficiency_metrics_tables .ShowAll false seqsStrCodes
        statesStrCodes).2.1 = [⟨0, .num 7⟩, ⟨60, .num 7⟩] := by
  decide

/-- C9 (amended): the call leaves the state-mapping table untouched and never
changes a timestamp, and when every code is already numeric the event table
is unchanged as well; the only mutation is the in-place numeric coercion of
the `code` column. -/
theorem C9_theorem :
    ∀ (pol : Policy) (sm : Bool) (seqs : List SeqRow)
      (states : List StateRow),
      (create_efficiency_metrics_tables pol sm seqs states).2.2 = states ∧
      ((create_efficiency_metrics_tables pol sm seqs states).2.1).map
        SeqRow.ts = seqs.map SeqRow.ts ∧
      ((∀ s ∈ seqs, ∃ n, s.code = PyVal.num n) →
        (create_efficiency_metrics_tables pol sm seqs states).2.1 = seqs) := by
  intro pol sm seqs states
  refine ⟨rfl, ?_, ?_⟩
  · show (coerce_codes seqs).map SeqRow.ts = seqs.map SeqRow.ts
    rw [coerce_codes, List.map_map]
    rfl
  · intro hnum
    show coerce_codes seqs = seqs
    rw [coerce_codes]
    conv_rhs => rw [← List.map_id seqs]
    apply List.map_congr_left
    intro s hs
    obtain ⟨n, hn⟩ := hnum s hs
    cases s with
    | mk ts code =>
      simp only at hn
      subst hn
      rfl

theorem C9_witness :
    (create_efficiency_metrics_tables .ShowAll false seqsScenario
        statesScenario).2.1 = seqsScenario :=
  (C9_theorem .ShowAll false seqsScenario statesScenario).2.2 (by
    intro s hs
    simp only [seqsScenario, List.mem_cons, List.not_mem_nil, or_false] at hs
    rcases hs with rfl | rfl | rfl
    · exact ⟨1, rfl⟩
    · exact ⟨1, rfl⟩
    · exact ⟨2, rfl⟩)

/-- C10 (confirmed): under Raw Split, with nonnegative input durations every
output row's duration is at most 1440 minutes: a row is emitted whole only
when it fits the running day budget, the first split portion is the positive
remainder of that budget, and every spilled portion is capped at
`min 1440 remaining`. -/
theorem C10_theorem :
    ∀ (l out : List Row),
      (∀ r ∈ l, 0 ≤ r.dur) → splitStates .RawSplit l = some out →
      ∀ o ∈ out, o.dur ≤ 1440 := by
  intro l out hl hs o ho
  cases l with
  | nil => simp [splitStates] at hs
  | cons r rs =>
    simp only [splitStates, Option.some.injEq] at hs
    subst hs
    exact runSplit_raw_le (r :: rs) 0 r.date none le_rfl hl o ho

theorem C10_witness :
    (⟨0, some Category.Production, 0, 1440⟩ : Row).dur ≤ 1440 :=
  C10_theorem [⟨0, some .Production, 0, 2000⟩]
    [⟨0, some .Production, 0, 1440⟩, ⟨0, some .Production, 1, 560⟩]
    (by decide) (by decide) ⟨0, some .Production, 0, 1440⟩ (by decide)
